import Mathlib

/-!
Verification of the Hermes debug-location subsystem: the delta-compressed
debug source-location codec of `DebugInfo.h` (`DebugInfoGenerator` /
`DebugInfo`) and the allocation-profiling `StackTracesTree`.

The repository provides the header `include/hermes/BCGen/HBC/DebugInfo.h`
(declarations, plus inline bodies for `delta`, `getStringTableSizeBytes`,
the section slices and `DebugSourceLocation::operator==`) and the unit test
`unittests/VMRuntime/StackTracesTreeTest.cpp`.  Function bodies that live in
the missing `.cpp` files (the LEB128 codec, `appendSourceLocations`,
`getLocationForAddress`, `appendString`, and the whole `StackTracesTree`)
are modelled from the specification; each such definition says so in its
doc comment.

Machine integers: `uint32_t` fields are modelled as `Nat` (with explicit
`< 2 ^ 32` bounds and `% 2 ^ 32` where wrap-around matters), and signed
deltas as `Int`.
-/

namespace HermesDebugInfo

/-! ## LEB128 variable-length integer codec

Modelled from the spec (section 4.1 and the glossary): a byte stream where
each byte contributes 7 payload bits plus a continuation flag, in signed and
unsigned variants.  The implementation (`hermes/Support/LEB128.h`) is not in
the sources, so the standard LEB128 algorithm described by the spec is used.
Bytes are modelled as `Nat` values below 256.  Recursion is by an explicit
fuel argument (always called with provably sufficient fuel) so that every
definition reduces by `decide` / `rfl`. -/

/-- Unsigned LEB128 encoding with explicit fuel. -/
def ulebAux : Nat → Nat → List Nat
  | 0, _ => []
  | f + 1, n =>
    if n < 128 then [n] else (n % 128 + 128) :: ulebAux f (n / 128)

/-- Unsigned LEB128 encoding of a natural number. -/
def uleb (n : Nat) : List Nat := ulebAux (n + 1) n

/-- Unsigned LEB128 decoding; returns the value and the remaining bytes. -/
def ulebDec : List Nat → Option (Nat × List Nat)
  | [] => none
  | b :: rest =>
    if b < 128 then some (b, rest)
    else
      match ulebDec rest with
      | some (v, r) => some (b - 128 + 128 * v, r)
      | none => none

/-- Signed LEB128 encoding with explicit fuel. -/
def slebAux : Nat → Int → List Nat
  | 0, _ => []
  | f + 1, x =>
    let b : Nat := (x % 128).toNat
    let r : Int := x / 128
    if (r = 0 ∧ b < 64) ∨ (r = -1 ∧ 64 ≤ b) then [b]
    else (b + 128) :: slebAux f r

/-- Signed LEB128 encoding of an integer. -/
def sleb (x : Int) : List Nat := slebAux (x.natAbs + 1) x

/-- Signed LEB128 decoding; returns the value and the remaining bytes. -/
def slebDec : List Nat → Option (Int × List Nat)
  | [] => none
  | b :: rest =>
    if b < 128 then
      if b < 64 then some ((b : Int), rest) else some ((b : Int) - 128, rest)
    else
      match slebDec rest with
      | some (v, r) => some ((b : Int) - 128 + 128 * v, r)
      | none => none

theorem ulebAux_roundTrip (f : Nat) :
    ∀ (n : Nat) (t : List Nat), n < f →
      ulebDec (ulebAux f n ++ t) = some (n, t) := by
  induction f with
  | zero => intro n t h; omega
  | succ f ih =>
    intro n t h
    by_cases hn : n < 128
    · simp [ulebAux, ulebDec, hn]
    · have hrec : n / 128 < f := by omega
      simp only [ulebAux, if_neg hn, List.cons_append]
      have hb : ¬ (n % 128 + 128 < 128) := by omega
      simp only [ulebDec, if_neg hb, ih (n / 128) t hrec]
      have : n % 128 + 128 - 128 + 128 * (n / 128) = n := by omega
      rw [this]

/-- Unsigned LEB128 round trip: decoding an encoded value restores it and
leaves trailing bytes untouched. -/
theorem uleb_roundTrip (n : Nat) (t : List Nat) :
    ulebDec (uleb n ++ t) = some (n, t) :=
  ulebAux_roundTrip (n + 1) n t (Nat.lt_succ_self n)

theorem slebAux_roundTrip (f : Nat) :
    ∀ (x : Int) (t : List Nat), x.natAbs < f →
      slebDec (slebAux f x ++ t) = some (x, t) := by
  induction f with
  | zero => intro x t h; omega
  | succ f ih =>
    intro x t h
    have hmod₀ : (0 : Int) ≤ x % 128 := Int.emod_nonneg x (by norm_num)
    have hmod₁ : x % 128 < 128 := Int.emod_lt_of_pos x (by norm_num)
    have hx : 128 * (x / 128) + x % 128 = x := Int.ediv_add_emod x 128
    have hbv : ((x % 128).toNat : Int) = x % 128 := Int.toNat_of_nonneg hmod₀
    by_cases hstop :
        (x / 128 = 0 ∧ (x % 128).toNat < 64) ∨
          (x / 128 = -1 ∧ 64 ≤ (x % 128).toNat)
    · simp only [slebAux]
      rw [if_pos hstop]
      have hlt : (x % 128).toNat < 128 := by omega
      simp only [List.cons_append, List.nil_append, slebDec]
      rw [if_pos hlt]
      rcases hstop with ⟨hr, hb⟩ | ⟨hr, hb⟩
      · rw [if_pos hb]
        have : ((x % 128).toNat : Int) = x := by rw [hbv]; omega
        rw [this]
        simp
      · have hnot : ¬ (x % 128).toNat < 64 := by omega
        rw [if_neg hnot]
        have : ((x % 128).toNat : Int) - 128 = x := by rw [hbv]; omega
        rw [this]
        simp
    · have hrec : (x / 128).natAbs < f := by omega
      simp only [slebAux, if_neg hstop, List.cons_append]
      have hb : ¬ ((x % 128).toNat + 128 < 128) := by omega
      simp only [slebDec, if_neg hb, ih (x / 128) t hrec]
      have : (((x % 128).toNat + 128 : Nat) : Int) - 128 + 128 * (x / 128) = x := by
        push_cast
        omega
      rw [this]

/-- Signed LEB128 round trip: decoding an encoded value restores it and
leaves trailing bytes untouched. -/
theorem sleb_roundTrip (x : Int) (t : List Nat) :
    slebDec (sleb x ++ t) = some (x, t) :=
  slebAux_roundTrip (x.natAbs + 1) x t (Nat.lt_succ_self x.natAbs)

/-! ## Data model (DebugInfo.h) -/

/-- Sentinel for an invalid source-mapping-url id
(`facebook::hermes::debugger::kInvalidBreakpoint`, which is `UINT32_MAX`). -/
def kInvalidBreakpoint : Nat := 2 ^ 32 - 1

/-- Sentinel for a missing debug offset (`DebugOffsets::NO_OFFSET`,
`UINT32_MAX`; DebugInfo.h lines 98-99). -/
def NO_OFFSET : Nat := 2 ^ 32 - 1

/-- Source location record, from `struct DebugSourceLocation`
(DebugInfo.h lines 36-75).  All fields are `uint32_t`, modelled as `Nat`
with explicit bounds where wrap-around could matter. -/
structure DebugSourceLocation where
  address : Nat := 0
  filenameId : Nat := 0
  sourceMappingUrlId : Nat := kInvalidBreakpoint
  line : Nat := 0
  column : Nat := 0
  statement : Nat := 0
deriving DecidableEq, Repr

namespace DebugSourceLocation

/-- Equality operator from the source (DebugInfo.h lines 67-70): it compares
address, filenameId, line, column and statement, and deliberately ignores
sourceMappingUrlId. -/
def eqOp (a rhs : DebugSourceLocation) : Bool :=
  decide (a.address = rhs.address) && decide (a.filenameId = rhs.filenameId) &&
    decide (a.line = rhs.line) && decide (a.column = rhs.column) &&
    decide (a.statement = rhs.statement)

theorem eqOp_iff (a b : DebugSourceLocation) :
    a.eqOp b = true ↔
      a.address = b.address ∧ a.filenameId = b.filenameId ∧ a.line = b.line ∧
        a.column = b.column ∧ a.statement = b.statement := by
  simp [eqOp, and_assoc]

/-- Predicate that every field of the location fits in a `uint32_t`, which
is the type every field has in the source. -/
def u32 (l : DebugSourceLocation) : Prop :=
  l.address < 2 ^ 32 ∧ l.filenameId < 2 ^ 32 ∧ l.line < 2 ^ 32 ∧
    l.column < 2 ^ 32 ∧ l.statement < 2 ^ 32

instance (l : DebugSourceLocation) : Decidable l.u32 := by
  unfold u32; infer_instance

/-- Canonical form of a location after a decode: the five encoded fields are
kept and sourceMappingUrlId (which is not part of the per-location encoding)
is the invalid sentinel. -/
def canon (l : DebugSourceLocation) : DebugSourceLocation :=
  { address := l.address, filenameId := l.filenameId,
    sourceMappingUrlId := kInvalidBreakpoint, line := l.line,
    column := l.column, statement := l.statement }

theorem canon_eqOp (l : DebugSourceLocation) : (canon l).eqOp l = true := by
  simp [canon, eqOp]

end DebugSourceLocation

/-! ## DebugInfoGenerator: the encoder -/

/-- Mutable accumulator state of `class DebugInfoGenerator`
(DebugInfo.h lines 324-410).  The filename table and file-region list are
not needed by any claim and are omitted; the four byte buffers and the
string-table index are modelled.  The string-table index maps an interned
string to its offset in the string table. -/
structure DebugInfoGenerator where
  sourcesData : List Nat := []
  lexicalData : List Nat := []
  textifiedCallees : List Nat := []
  stringTable : List Nat := []
  stringTableIndex : List (String × Nat) := []
deriving DecidableEq, Repr

namespace DebugInfoGenerator

/-- Signed 32-bit delta between two `uint32_t` values, from
`DebugInfoGenerator::delta` (DebugInfo.h lines 365-373): the difference is
computed exactly in 64-bit, and a difference outside
`[INT32_MIN, INT32_MAX]` trips a fatal assertion, modelled as `none`. -/
def delta (toV fromV : Nat) : Option Int :=
  let diff : Int := (toV : Int) - (fromV : Int)
  if -(2 ^ 31) ≤ diff ∧ diff ≤ 2 ^ 31 - 1 then some diff else none

/-- Proposition that the five field deltas from `prev` to `cur` all fit the
signed 32-bit range checked by `DebugInfoGenerator::delta`. -/
def deltasInRange (prev cur : DebugSourceLocation) : Prop :=
  ((-(2 ^ 31) : Int) ≤ (cur.address : Int) - prev.address ∧
      (cur.address : Int) - prev.address ≤ 2 ^ 31 - 1) ∧
    ((-(2 ^ 31) : Int) ≤ (cur.filenameId : Int) - prev.filenameId ∧
      (cur.filenameId : Int) - prev.filenameId ≤ 2 ^ 31 - 1) ∧
    ((-(2 ^ 31) : Int) ≤ (cur.line : Int) - prev.line ∧
      (cur.line : Int) - prev.line ≤ 2 ^ 31 - 1) ∧
    ((-(2 ^ 31) : Int) ≤ (cur.column : Int) - prev.column ∧
      (cur.column : Int) - prev.column ≤ 2 ^ 31 - 1) ∧
    ((-(2 ^ 31) : Int) ≤ (cur.statement : Int) - prev.statement ∧
      (cur.statement : Int) - prev.statement ≤ 2 ^ 31 - 1)

instance (prev cur : DebugSourceLocation) : Decidable (deltasInRange prev cur) := by
  unfold deltasInRange; infer_instance

/-- Modelled from the spec (section 4.1): the initial DebugSourceLocation of
a function is encoded in full, one unsigned LEB128 value per field, in field
order (address, filenameId, line, column, statement).  The implementation
body of appendSourceLocations is not in the sources. -/
def encodeFullLoc (l : DebugSourceLocation) : List Nat :=
  uleb l.address ++ uleb l.filenameId ++ uleb l.line ++ uleb l.column ++
    uleb l.statement

/-- Modelled from the spec (section 4.1): each subsequent entry is encoded
as five signed LEB128 deltas relative to the previous entry; a delta outside
the signed 32-bit range is the fatal assertion of `delta`, modelled as
`none`. -/
def encodeDeltaLoc (prev cur : DebugSourceLocation) : Option (List Nat) := do
  let d1 ← delta cur.address prev.address
  let d2 ← delta cur.filenameId prev.filenameId
  let d3 ← delta cur.line prev.line
  let d4 ← delta cur.column prev.column
  let d5 ← delta cur.statement prev.statement
  pure (sleb d1 ++ sleb d2 ++ sleb d3 ++ sleb d4 ++ sleb d5)

/-- Modelled from the spec (section 4.1): the delta-encoded tail of a
location list, one entry per element. -/
def encodeRestLocs : DebugSourceLocation → List DebugSourceLocation →
    Option (List Nat)
  | _, [] => some []
  | prev, cur :: rest => do
    let bs ← encodeDeltaLoc prev cur
    let more ← encodeRestLocs cur rest
    pure (bs ++ more)

/-- Modelled from the spec (section 4.1): the serialized form of one
function's location list.  The spec leaves the list-termination encoding
unstated; an unsigned LEB128 entry count is modelled as the prefix so the
decoder knows where the list ends. -/
def encodeLocList (start : DebugSourceLocation)
    (offsets : List DebugSourceLocation) : Option (List Nat) := do
  let rest ← encodeRestLocs start offsets
  pure (uleb (offsets.length + 1) ++ encodeFullLoc start ++ rest)

/-- Modelled from the spec (section 4.1): appendSourceLocations writes one
function's location list into the sources-data buffer and returns the byte
offset at which the list begins.  (The file-region bookkeeping keyed by
functionIndex is not modelled; no claim depends on it.)  A delta outside the
signed 32-bit range is the fatal assertion of `delta`, modelled as `none`. -/
def appendSourceLocations (g : DebugInfoGenerator)
    (start : DebugSourceLocation) (functionIndex : Nat)
    (offsets : List DebugSourceLocation) :
    Option (DebugInfoGenerator × Nat) :=
  match encodeLocList start offsets with
  | none => none
  | some bs =>
    some ({ g with sourcesData := g.sourcesData ++ bs }, g.sourcesData.length)

end DebugInfoGenerator

/-! ## DebugInfo: the immutable container and decoder -/

/-- Immutable debug-info container, from `class DebugInfo`
(DebugInfo.h lines 136-322).  The filename table/storage and file-region
list are not needed by any claim and are omitted.  `data` is the one
contiguous byte buffer logically partitioned as
`[sourceLocations | lexicalData | textifiedCallee | stringTable]` with the
three offset fields marking the partition boundaries
(DebugInfo.h lines 268-272). -/
structure DebugInfo where
  lexicalDataOffset : Nat := 0
  textifiedCalleeOffset : Nat := 0
  stringTableOffset : Nat := 0
  data : List Nat := []
deriving DecidableEq, Repr

namespace DebugInfo

/-- Well-formedness of the section boundaries, the documented invariant
(spec section 3): `0 ≤ lexicalDataOffset ≤ textifiedCalleeOffset ≤
stringTableOffset ≤ data.size()`. -/
def wf (d : DebugInfo) : Prop :=
  d.lexicalDataOffset ≤ d.textifiedCalleeOffset ∧
    d.textifiedCalleeOffset ≤ d.stringTableOffset ∧
    d.stringTableOffset ≤ d.data.length

instance (d : DebugInfo) : Decidable d.wf := by
  unfold wf; infer_instance

/-- Slice of a byte buffer: `llvh::ArrayRef::slice(start, n)` keeps `n`
elements starting at index `start` (named sliceRef here because `slice` is
taken by the ambient library). -/
def sliceRef (l : List Nat) (start n : Nat) : List Nat := (l.drop start).take n

/-- Size in bytes reported for the serialized string table, from
`DebugInfo::getStringTableSizeBytes` (DebugInfo.h lines 263-265):
`stringTableOffset_ - textifiedCalleeOffset_` (uint32 subtraction; equal to
truncated Nat subtraction whenever the section invariant holds, which every
claim below assumes or establishes). -/
def getStringTableSizeBytes (d : DebugInfo) : Nat :=
  d.stringTableOffset - d.textifiedCalleeOffset

/-- Slice of data reflecting the source locations, from
`DebugInfo::sourceLocationsData` (DebugInfo.h lines 275-277). -/
def sourceLocationsData (d : DebugInfo) : List Nat :=
  sliceRef d.data 0 d.lexicalDataOffset

/-- Slice of data reflecting the lexical data, from `DebugInfo::lexicalData`
(DebugInfo.h lines 280-283). -/
def lexicalData (d : DebugInfo) : List Nat :=
  sliceRef d.data d.lexicalDataOffset (d.textifiedCalleeOffset - d.lexicalDataOffset)

/-- Slice of data reflecting the textified callee table, from
`DebugInfo::textifiedCalleeData` (DebugInfo.h lines 286-289): it slices
starting at textifiedCalleeOffset_ with length getStringTableSizeBytes(). -/
def textifiedCalleeData (d : DebugInfo) : List Nat :=
  sliceRef d.data d.textifiedCalleeOffset d.getStringTableSizeBytes

/-- Slice of data reflecting the string table, from
`DebugInfo::stringTableData` (DebugInfo.h lines 292-294): everything from
stringTableOffset_ to the end of the buffer. -/
def stringTableData (d : DebugInfo) : List Nat :=
  d.data.drop d.stringTableOffset

end DebugInfo

namespace DebugInfoGenerator

/-- Modelled from the spec (sections 3 and 5): serializeWithMove hands the
four accumulated buffers to an immutable DebugInfo as one concatenated byte
region, recording the three partition boundaries. -/
def serializeWithMove (g : DebugInfoGenerator) : DebugInfo :=
  { lexicalDataOffset := g.sourcesData.length,
    textifiedCalleeOffset := g.sourcesData.length + g.lexicalData.length,
    stringTableOffset :=
      g.sourcesData.length + g.lexicalData.length + g.textifiedCallees.length,
    data := g.sourcesData ++ g.lexicalData ++ g.textifiedCallees ++ g.stringTable }

end DebugInfoGenerator

namespace DebugInfo

/-- Wrap-around addition of a signed delta to a `uint32_t` accumulator. -/
def addWrap32 (n : Nat) (d : Int) : Nat := (((n : Int) + d) % (2 ^ 32)).toNat

/-- Modelled from the spec (section 4.1): decoding of a full (non-delta)
DebugSourceLocation, inverse of `encodeFullLoc`. -/
def decodeFullLoc (bs : List Nat) :
    Option (DebugSourceLocation × List Nat) := do
  let (a, bs) ← ulebDec bs
  let (fid, bs) ← ulebDec bs
  let (ln, bs) ← ulebDec bs
  let (col, bs) ← ulebDec bs
  let (st, bs) ← ulebDec bs
  pure ({ address := a, filenameId := fid,
          sourceMappingUrlId := kInvalidBreakpoint, line := ln, column := col,
          statement := st }, bs)

/-- Modelled from the spec (section 4.1): decoding of one delta-encoded
entry, accumulating the five signed deltas into the previous entry with
`uint32_t` wrap-around arithmetic. -/
def decodeDeltaLoc (prev : DebugSourceLocation) (bs : List Nat) :
    Option (DebugSourceLocation × List Nat) := do
  let (d1, bs) ← slebDec bs
  let (d2, bs) ← slebDec bs
  let (d3, bs) ← slebDec bs
  let (d4, bs) ← slebDec bs
  let (d5, bs) ← slebDec bs
  pure ({ address := addWrap32 prev.address d1,
          filenameId := addWrap32 prev.filenameId d2,
          sourceMappingUrlId := kInvalidBreakpoint,
          line := addWrap32 prev.line d3,
          column := addWrap32 prev.column d4,
          statement := addWrap32 prev.statement d5 }, bs)

/-- Modelled from the spec (section 4.1): decoding of the delta-encoded tail
of a location list, given the number of remaining entries. -/
def decodeRestLocs : Nat → DebugSourceLocation → List Nat →
    Option (List DebugSourceLocation × List Nat)
  | 0, _, bs => some ([], bs)
  | k + 1, prev, bs => do
    let (cur, bs) ← decodeDeltaLoc prev bs
    let (rest, bs) ← decodeRestLocs k cur bs
    pure (cur :: rest, bs)

/-- Modelled from the spec (section 4.1): the forward decoding of one
function's whole location list, starting at `debugOffset` in the data
buffer (the count prefix, then the full first entry, then the deltas). -/
def decodeLocations (data : List Nat) (debugOffset : Nat) :
    Option (List DebugSourceLocation) := do
  let (count, bs) ← ulebDec (data.drop debugOffset)
  match count with
  | 0 => pure []
  | k + 1 => do
    let (first, bs) ← decodeFullLoc bs
    let (rest, _) ← decodeRestLocs k first bs
    pure (first :: rest)

/-- Modelled from the spec (section 4.1): the forward scan keeping the last
entry whose address is at most the query, stopping at the first entry past
the query.  The accumulator holds the best entry seen so far. -/
def scanLocAux (q : Nat) : List DebugSourceLocation →
    Option DebugSourceLocation → Option DebugSourceLocation
  | [], best => best
  | l :: rest, best =>
    if l.address ≤ q then scanLocAux q rest (some l) else best

/-- Modelled from the spec (section 4.1): getLocationForAddress decodes
forward from `debugOffset`, accumulating deltas, and returns the last entry
whose address is at most `offsetInFunction`, or none if the list is empty
or the first address already exceeds the query. -/
def getLocationForAddress (d : DebugInfo) (debugOffset offsetInFunction : Nat) :
    Option DebugSourceLocation :=
  match decodeLocations d.data debugOffset with
  | none => none
  | some ls => scanLocAux offsetInFunction ls none

end DebugInfo

/-! ## Round-trip lemmas for the location codec -/

open DebugSourceLocation DebugInfoGenerator DebugInfo

theorem delta_eq_some {a b : Nat} {d : Int} (h : delta a b = some d) :
    d = (a : Int) - b ∧ -(2 ^ 31) ≤ d ∧ d ≤ 2 ^ 31 - 1 := by
  by_cases hc : -(2 ^ 31) ≤ (a : Int) - b ∧ (a : Int) - b ≤ 2 ^ 31 - 1
  · simp only [delta, if_pos hc, Option.some_inj] at h
    exact ⟨h.symm, h ▸ hc.1, h ▸ hc.2⟩
  · simp only [delta, if_neg hc] at h
    exact absurd h (by simp)

theorem delta_isSome_iff (a b : Nat) :
    (delta a b).isSome ↔
      -(2 ^ 31) ≤ (a : Int) - b ∧ (a : Int) - b ≤ 2 ^ 31 - 1 := by
  by_cases hc : -(2 ^ 31) ≤ (a : Int) - b ∧ (a : Int) - b ≤ 2 ^ 31 - 1
  · simp [delta, if_pos hc, hc]
  · simp [delta, if_neg hc, hc]

theorem encodeDeltaLoc_eq_some {prev cur : DebugSourceLocation} {bs : List Nat}
    (h : encodeDeltaLoc prev cur = some bs) :
    deltasInRange prev cur ∧
      bs = sleb ((cur.address : Int) - prev.address) ++
        sleb ((cur.filenameId : Int) - prev.filenameId) ++
        sleb ((cur.line : Int) - prev.line) ++
        sleb ((cur.column : Int) - prev.column) ++
        sleb ((cur.statement : Int) - prev.statement) := by
  simp only [encodeDeltaLoc, Option.bind_eq_bind] at h
  cases h1 : delta cur.address prev.address with
  | none => rw [h1] at h; simp at h
  | some d1 =>
    rw [h1] at h
    cases h2 : delta cur.filenameId prev.filenameId with
    | none => rw [h2] at h; simp at h
    | some d2 =>
      rw [h2] at h
      cases h3 : delta cur.line prev.line with
      | none => rw [h3] at h; simp at h
      | some d3 =>
        rw [h3] at h
        cases h4 : delta cur.column prev.column with
        | none => rw [h4] at h; simp at h
        | some d4 =>
          rw [h4] at h
          cases h5 : delta cur.statement prev.statement with
          | none => rw [h5] at h; simp at h
          | some d5 =>
            rw [h5] at h
            simp only [Option.some_bind, Option.pure_def,
              Option.some_inj] at h
            obtain ⟨e1, r1a, r1b⟩ := delta_eq_some h1
            obtain ⟨e2, r2a, r2b⟩ := delta_eq_some h2
            obtain ⟨e3, r3a, r3b⟩ := delta_eq_some h3
            obtain ⟨e4, r4a, r4b⟩ := delta_eq_some h4
            obtain ⟨e5, r5a, r5b⟩ := delta_eq_some h5
            subst e1 e2 e3 e4 e5
            refine ⟨⟨⟨r1a, r1b⟩, ⟨r2a, r2b⟩, ⟨r3a, r3b⟩, ⟨r4a, r4b⟩, ⟨r5a, r5b⟩⟩, ?_⟩
            rw [← h]

theorem encodeDeltaLoc_isSome_iff (prev cur : DebugSourceLocation) :
    (encodeDeltaLoc prev cur).isSome ↔ deltasInRange prev cur := by
  constructor
  · intro h
    obtain ⟨bs, hbs⟩ := Option.isSome_iff_exists.mp h
    exact (encodeDeltaLoc_eq_some hbs).1
  · rintro ⟨h1, h2, h3, h4, h5⟩
    simp only [encodeDeltaLoc, delta, Option.bind_eq_bind]
    rw [if_pos h1, if_pos h2, if_pos h3, if_pos h4, if_pos h5]
    simp

theorem addWrap32_exact {p c : Nat} (hc : c < 2 ^ 32) :
    addWrap32 p ((c : Int) - p) = c := by
  unfold addWrap32
  have h1 : (p : Int) + ((c : Int) - p) = c := by ring
  rw [h1]
  have h2 : (c : Int) % (2 ^ 32) = c := by omega
  rw [h2]
  exact Int.toNat_natCast c

theorem decodeDeltaLoc_encodeDeltaLoc {prev cur : DebugSourceLocation}
    {bs : List Nat} (t : List Nat) (h : encodeDeltaLoc prev cur = some bs)
    (hc : cur.u32) :
    decodeDeltaLoc (canon prev) (bs ++ t) = some (canon cur, t) := by
  obtain ⟨_, hbs⟩ := encodeDeltaLoc_eq_some h
  subst hbs
  obtain ⟨u1, u2, u3, u4, u5⟩ := hc
  simp only [decodeDeltaLoc, List.append_assoc, Option.bind_eq_bind,
    sleb_roundTrip, Option.some_bind, Option.pure_def, Option.some_inj,
    canon, addWrap32_exact u1, addWrap32_exact u2, addWrap32_exact u3,
    addWrap32_exact u4, addWrap32_exact u5]

theorem decodeFullLoc_encodeFullLoc (l : DebugSourceLocation)
    (t : List Nat) :
    decodeFullLoc (encodeFullLoc l ++ t) = some (canon l, t) := by
  simp only [decodeFullLoc, encodeFullLoc, List.append_assoc,
    Option.bind_eq_bind, uleb_roundTrip, Option.some_bind, Option.pure_def,
    Option.some_inj, canon]

theorem decodeRestLocs_encodeRestLocs :
    ∀ (offsets : List DebugSourceLocation) (prev : DebugSourceLocation)
      (bs t : List Nat), encodeRestLocs prev offsets = some bs →
      (∀ l ∈ offsets, l.u32) →
      decodeRestLocs offsets.length (canon prev) (bs ++ t) =
        some (offsets.map canon, t) := by
  intro offsets
  induction offsets with
  | nil =>
    intro prev bs t h _
    simp only [encodeRestLocs, Option.some_inj] at h
    subst h
    simp [decodeRestLocs]
  | cons cur rest ih =>
    intro prev bs t h hu
    simp only [encodeRestLocs, Option.bind_eq_bind] at h
    cases h1 : encodeDeltaLoc prev cur with
    | none => rw [h1] at h; simp at h
    | some bs1 =>
      rw [h1] at h
      cases h2 : encodeRestLocs cur rest with
      | none => rw [h2] at h; simp at h
      | some more =>
        rw [h2] at h
        simp only [Option.some_bind, Option.pure_def, Option.some_inj] at h
        subst h
        have hcur : cur.u32 := hu cur (by simp)
        have hrest : ∀ l ∈ rest, l.u32 := fun l hl => hu l (by simp [hl])
        simp only [List.length_cons, decodeRestLocs, Option.bind_eq_bind,
          List.append_assoc]
        rw [decodeDeltaLoc_encodeDeltaLoc (more ++ t) h1 hcur]
        simp only [Option.some_bind]
        rw [ih cur more t h2 hrest]
        simp

/-! ## Characterization of the address query -/

theorem getLast?_cons_eq_or {α : Type} (a : α) (l : List α) :
    (a :: l).getLast? = l.getLast?.or (some a) := by
  cases l with
  | nil => rfl
  | cons b m =>
    rw [List.getLast?_cons_cons]
    have hne : (b :: m) ≠ [] := by simp
    obtain ⟨y, hy⟩ : ∃ y, (b :: m).getLast? = some y :=
      ⟨(b :: m).getLast hne, List.getLast?_eq_getLast_of_ne_nil hne⟩
    rw [hy]
    rfl

theorem mem_of_getLast?_eq_some {α : Type} {l : List α} {x : α}
    (h : l.getLast? = some x) : x ∈ l := by
  obtain ⟨hne, hx⟩ := List.mem_getLast?_eq_getLast (Option.mem_def.mpr h)
  rw [hx]
  exact List.getLast_mem hne

theorem scanLocAux_eq_takeWhile (q : Nat) :
    ∀ (ls : List DebugSourceLocation) (acc : Option DebugSourceLocation),
      scanLocAux q ls acc =
        ((ls.takeWhile fun l => decide (l.address ≤ q)).getLast?).or acc := by
  intro ls
  induction ls with
  | nil => intro acc; simp [scanLocAux]
  | cons l rest ih =>
    intro acc
    by_cases h : l.address ≤ q
    · rw [scanLocAux, if_pos h, ih (some l),
        List.takeWhile_cons_of_pos (by simpa using h), getLast?_cons_eq_or,
        Option.or_assoc]
      rfl
    · rw [scanLocAux, if_neg h,
        List.takeWhile_cons_of_neg (by simpa using h)]
      rfl

/-- Specification-side description of the query result (the wording of spec
section 4.1 and claim C4): the last entry in the location list whose address
is at most the query. -/
def lastLeSpec (q : Nat) (ls : List DebugSourceLocation) :
    Option DebugSourceLocation :=
  (ls.filter fun l => decide (l.address ≤ q)).getLast?

theorem filter_le_eq_takeWhile (q : Nat) :
    ∀ {ls : List DebugSourceLocation},
      ls.Pairwise (fun a b => a.address ≤ b.address) →
      (ls.filter fun l => decide (l.address ≤ q)) =
        ls.takeWhile fun l => decide (l.address ≤ q) := by
  intro ls
  induction ls with
  | nil => intro _; rfl
  | cons l rest ih =>
    intro hp
    rw [List.pairwise_cons] at hp
    by_cases h : l.address ≤ q
    · rw [List.filter_cons_of_pos (by simpa using h),
        List.takeWhile_cons_of_pos (by simpa using h), ih hp.2]
    · rw [List.filter_cons_of_neg (by simpa using h),
        List.takeWhile_cons_of_neg (by simpa using h)]
      apply List.filter_eq_nil_iff.mpr
      intro a ha
      have := hp.1 a ha
      simp only [decide_eq_true_eq]
      omega

theorem takeWhileLe_mono {q r : Nat} (hqr : q ≤ r) :
    ∀ ls : List DebugSourceLocation,
      List.IsPrefix (ls.takeWhile fun l => decide (l.address ≤ q))
        (ls.takeWhile fun l => decide (l.address ≤ r)) := by
  intro ls
  induction ls with
  | nil => exact List.nil_prefix
  | cons l rest ih =>
    by_cases h : l.address ≤ q
    · rw [List.takeWhile_cons_of_pos (by simpa using h),
        List.takeWhile_cons_of_pos (by simp; omega)]
      obtain ⟨t, ht⟩ := ih
      exact ⟨t, by rw [List.cons_append, ht]⟩
    · rw [List.takeWhile_cons_of_neg (by simpa using h)]
      exact List.nil_prefix

theorem getLast?_mono_of_sorted {l1 l2 : List DebugSourceLocation}
    (hpre : List.IsPrefix l1 l2)
    (hs : l2.Pairwise (fun a b => a.address ≤ b.address))
    {x : DebugSourceLocation} (h : l1.getLast? = some x) :
    ∃ y, l2.getLast? = some y ∧ x.address ≤ y.address := by
  obtain ⟨t, rfl⟩ := hpre
  cases t with
  | nil => exact ⟨x, by simpa using h, le_refl _⟩
  | cons b m =>
    have hne : (b :: m) ≠ [] := by simp
    obtain ⟨y, hy⟩ : ∃ y, (b :: m).getLast? = some y :=
      ⟨(b :: m).getLast hne, List.getLast?_eq_getLast_of_ne_nil hne⟩
    refine ⟨y, by rw [List.getLast?_append_of_ne_nil l1 hne, hy], ?_⟩
    have hx : x ∈ l1 := mem_of_getLast?_eq_some h
    have hymem : y ∈ b :: m := mem_of_getLast?_eq_some hy
    exact (List.pairwise_append.mp hs).2.2 x hx y hymem

theorem takeWhile_getLast?_strict :
    ∀ ls : List DebugSourceLocation,
      ls.Pairwise (fun a b => a.address < b.address) →
      ∀ l ∈ ls,
        (ls.takeWhile fun y => decide (y.address ≤ l.address)).getLast? =
          some l := by
  intro ls
  induction ls with
  | nil => intro _ l hl; exact absurd hl (by simp)
  | cons x rest ih =>
    intro hp l hl
    rw [List.pairwise_cons] at hp
    rcases List.mem_cons.mp hl with rfl | hmem
    · rw [List.takeWhile_cons_of_pos (by simp)]
      cases rest with
      | nil => rfl
      | cons y m =>
        rw [List.takeWhile_cons_of_neg]
        · rfl
        · have := hp.1 y (by simp)
          simp only [decide_eq_true_eq]
          omega
    · have hxl : x.address < l.address := hp.1 l hmem
      rw [List.takeWhile_cons_of_pos (by simp; omega), getLast?_cons_eq_or,
        ih hp.2 l hmem]
      rfl

/-! ## Decoding an appended location list -/

theorem forall₂_eqOp_map_canon :
    ∀ ls : List DebugSourceLocation,
      List.Forall₂ (fun a b => a.eqOp b = true) (ls.map canon) ls := by
  intro ls
  induction ls with
  | nil => exact List.Forall₂.nil
  | cons l rest ih => exact List.Forall₂.cons (canon_eqOp l) ih

theorem appendSourceLocations_eq_some {g g' : DebugInfoGenerator}
    {start : DebugSourceLocation} {fi off : Nat}
    {offsets : List DebugSourceLocation}
    (happ : g.appendSourceLocations start fi offsets = some (g', off)) :
    ∃ restBs, encodeRestLocs start offsets = some restBs ∧
      off = g.sourcesData.length ∧
      g' = { g with sourcesData := g.sourcesData ++
        (uleb (offsets.length + 1) ++ encodeFullLoc start ++ restBs) } := by
  cases henc : encodeLocList start offsets with
  | none =>
    rw [appendSourceLocations, henc] at happ
    exact absurd happ (by simp)
  | some bs =>
    rw [appendSourceLocations, henc] at happ
    simp only [Option.some_inj] at happ
    simp only [encodeLocList, Option.bind_eq_bind] at henc
    cases hrest : encodeRestLocs start offsets with
    | none => rw [hrest] at henc; exact absurd henc (by simp)
    | some restBs =>
      rw [hrest] at henc
      simp only [Option.some_bind, Option.pure_def, Option.some_inj] at henc
      injection happ with hgEq hoffEq
      refine ⟨restBs, rfl, hoffEq.symm, ?_⟩
      rw [← hgEq, ← henc]

theorem decodeLocations_of_append {g g' : DebugInfoGenerator}
    {start : DebugSourceLocation} {fi off : Nat}
    {offsets : List DebugSourceLocation}
    (happ : g.appendSourceLocations start fi offsets = some (g', off))
    (hu : ∀ l ∈ start :: offsets, l.u32) :
    decodeLocations g'.serializeWithMove.data off =
      some ((start :: offsets).map canon) := by
  obtain ⟨restBs, hrest, hoff, hg⟩ := appendSourceLocations_eq_some happ
  subst hoff hg
  have hdata :
      (DebugInfoGenerator.serializeWithMove
        { g with sourcesData := g.sourcesData ++
          (uleb (offsets.length + 1) ++ encodeFullLoc start ++ restBs) }).data =
      g.sourcesData ++ (uleb (offsets.length + 1) ++ (encodeFullLoc start ++
        (restBs ++ (g.lexicalData ++ (g.textifiedCallees ++ g.stringTable))))) := by
    simp [DebugInfoGenerator.serializeWithMove, List.append_assoc]
  rw [decodeLocations, hdata, List.drop_left]
  simp only [Option.bind_eq_bind, uleb_roundTrip, Option.some_bind]
  rw [decodeFullLoc_encodeFullLoc]
  simp only [Option.some_bind]
  rw [decodeRestLocs_encodeRestLocs offsets start restBs _ hrest
    (fun l hl => hu l (by simp [hl]))]
  simp

/-! ## Claim theorems for the debug location codec -/

/-- Claim C1: for every function and every appended location list, decoding
the list in order (from the offset returned by appendSourceLocations)
reproduces the exact (address, filenameId, line, column, statement) tuple of
every appended entry, compared by the operator== of DebugSourceLocation;
delta re-composition is exact with no precision loss.  When the appended
addresses are strictly increasing, querying getLocationForAddress at each
appended address returns exactly that entry. -/
theorem C1_roundTrip (g g' : DebugInfoGenerator)
    (start : DebugSourceLocation) (fi off : Nat)
    (offsets : List DebugSourceLocation)
    (happ : g.appendSourceLocations start fi offsets = some (g', off))
    (hu : ∀ l ∈ start :: offsets, l.u32) :
    (∃ ls, decodeLocations g'.serializeWithMove.data off = some ls ∧
        List.Forall₂ (fun a b => a.eqOp b = true) ls (start :: offsets)) ∧
      ((start :: offsets).Pairwise (fun a b => a.address < b.address) →
        ∀ l ∈ start :: offsets,
          ∃ r, g'.serializeWithMove.getLocationForAddress off l.address =
              some r ∧ r.eqOp l = true) := by
  have hdec := decodeLocations_of_append happ hu
  constructor
  · exact ⟨(start :: offsets).map canon, hdec, forall₂_eqOp_map_canon _⟩
  · intro hsorted l hl
    refine ⟨canon l, ?_, canon_eqOp l⟩
    rw [getLocationForAddress, hdec]
    show scanLocAux l.address ((start :: offsets).map canon) none =
      some (canon l)
    have hsorted' :
        ((start :: offsets).map canon).Pairwise
          (fun a b => a.address < b.address) := by
      refine List.Pairwise.map canon ?_ hsorted
      intro a b hab
      simpa [canon] using hab
    have hlmem : canon l ∈ (start :: offsets).map canon :=
      List.mem_map_of_mem canon hl
    have := takeWhile_getLast?_strict ((start :: offsets).map canon)
      hsorted' (canon l) hlmem
    rw [scanLocAux_eq_takeWhile]
    have haddr : (canon l).address = l.address := rfl
    rw [← haddr, this]
    rfl

/-- Claim C4: getLocationForAddress returns the last entry in the decoded
location list whose address is at most offsetInFunction; it returns the
explicit no-value result (none) when the list is empty or when the first
recorded address already exceeds the query. -/
theorem C4_lastLe (d : DebugInfo) (off q : Nat)
    (ls : List DebugSourceLocation)
    (hdec : decodeLocations d.data off = some ls)
    (hsorted : ls.Pairwise (fun a b => a.address ≤ b.address)) :
    d.getLocationForAddress off q = lastLeSpec q ls ∧
      (ls = [] → d.getLocationForAddress off q = none) ∧
      (∀ l0 rest, ls = l0 :: rest → q < l0.address →
        d.getLocationForAddress off q = none) := by
  have hmain : d.getLocationForAddress off q = lastLeSpec q ls := by
    rw [getLocationForAddress, hdec]
    show scanLocAux q ls none = lastLeSpec q ls
    rw [scanLocAux_eq_takeWhile, lastLeSpec, filter_le_eq_takeWhile q hsorted]
    exact Option.or_none
  refine ⟨hmain, ?_, ?_⟩
  · intro hnil
    subst hnil
    rw [hmain]
    rfl
  · intro l0 rest hcons hq
    subst hcons
    rw [hmain, lastLeSpec, filter_le_eq_takeWhile q hsorted,
      List.takeWhile_cons_of_neg (by simp only [decide_eq_true_eq]; omega)]
    rfl

/-- Claim C5: the query is monotone.  For a sorted location list and queries
a at most b, any location returned for a has address at most the address of
the location returned for b (which exists whenever the former does), and a
returned location never has an address exceeding the query. -/
theorem C5_monotone (d : DebugInfo) (off a b : Nat)
    (ls : List DebugSourceLocation) (hab : a ≤ b)
    (hdec : decodeLocations d.data off = some ls)
    (hsorted : ls.Pairwise (fun x y => x.address ≤ y.address)) :
    (∀ r, d.getLocationForAddress off a = some r → r.address ≤ a) ∧
      (∀ ra, d.getLocationForAddress off a = some ra →
        ∃ rb, d.getLocationForAddress off b = some rb ∧
          ra.address ≤ rb.address) := by
  have hscan : ∀ q : Nat, d.getLocationForAddress off q =
      ((ls.takeWhile fun l => decide (l.address ≤ q)).getLast?).or none := by
    intro q
    rw [getLocationForAddress, hdec]
    show scanLocAux q ls none = _
    rw [scanLocAux_eq_takeWhile]
  constructor
  · intro r hr
    rw [hscan a] at hr
    have hr' : (ls.takeWhile fun l => decide (l.address ≤ a)).getLast? =
        some r := by
      cases hcase : (ls.takeWhile fun l => decide (l.address ≤ a)).getLast? with
      | none => rw [hcase] at hr; exact absurd hr (by simp)
      | some v => rw [hcase] at hr; simpa using hr
    have hmem := mem_of_getLast?_eq_some hr'
    have := List.mem_takeWhile_imp hmem
    simpa using this
  · intro ra hra
    rw [hscan a] at hra
    have hra' : (ls.takeWhile fun l => decide (l.address ≤ a)).getLast? =
        some ra := by
      cases hcase : (ls.takeWhile fun l => decide (l.address ≤ a)).getLast? with
      | none => rw [hcase] at hra; exact absurd hra (by simp)
      | some v => rw [hcase] at hra; simpa using hra
    have hpre := takeWhileLe_mono hab ls
    have hsortedTw : (ls.takeWhile fun l => decide (l.address ≤ b)).Pairwise
        (fun x y => x.address ≤ y.address) :=
      hsorted.sublist (List.takeWhile_sublist _)
    obtain ⟨rb, hrb, hle⟩ := getLast?_mono_of_sorted hpre hsortedTw hra'
    refine ⟨rb, ?_, hle⟩
    rw [hscan b, hrb]
    rfl

/-- Claim C6: during encoding by appendSourceLocations every delta between
consecutive entries (including from the initial entry to the first delta
entry) must fit the signed 32-bit range; the append succeeds exactly when
every consecutive field delta is in [INT32_MIN, INT32_MAX], and a delta
outside that range is the fatal assertion of the delta helper, modelled as
the none result, never a partially written buffer. -/
theorem C6_deltaRange (g : DebugInfoGenerator) (start : DebugSourceLocation)
    (fi : Nat) (offsets : List DebugSourceLocation) :
    (g.appendSourceLocations start fi offsets).isSome ↔
      List.Chain' deltasInRange (start :: offsets) := by
  have hrest : ∀ (prev : DebugSourceLocation)
      (rest : List DebugSourceLocation),
      (encodeRestLocs prev rest).isSome ↔ List.Chain' deltasInRange (prev :: rest) := by
    intro prev rest
    induction rest generalizing prev with
    | nil => simp [encodeRestLocs]
    | cons cur tail ih =>
      rw [List.chain'_cons, ← ih cur, ← encodeDeltaLoc_isSome_iff prev cur]
      constructor
      · intro h
        obtain ⟨bs, hbs⟩ := Option.isSome_iff_exists.mp h
        simp only [encodeRestLocs, Option.bind_eq_bind] at hbs
        cases h1 : encodeDeltaLoc prev cur with
        | none => rw [h1] at hbs; exact absurd hbs (by simp)
        | some b1 =>
          rw [h1] at hbs
          cases h2 : encodeRestLocs cur tail with
          | none => rw [h2] at hbs; exact absurd hbs (by simp)
          | some b2 => exact ⟨by simp [h1], by simp [h2]⟩
      · rintro ⟨h1, h2⟩
        obtain ⟨b1, hb1⟩ := Option.isSome_iff_exists.mp h1
        obtain ⟨b2, hb2⟩ := Option.isSome_iff_exists.mp h2
        simp [encodeRestLocs, hb1, hb2]
  rw [← hrest start offsets]
  cases h : encodeRestLocs start offsets with
  | none => simp [appendSourceLocations, encodeLocList, h]
  | some restBs => simp [appendSourceLocations, encodeLocList, h]

/-- Claim C10: getStringTableSizeBytes returns stringTableOffset minus
textifiedCalleeOffset, which under the four-section layout
[sourceLocations | lexicalData | textifiedCallee | stringTable] is the byte
length of the textified-callee section and is the length used to slice
textifiedCalleeData, while the byte length of the string-table section is
data.size minus stringTableOffset. -/
theorem C10_stringTableSize (d : DebugInfo) (hwf : d.wf) :
    d.getStringTableSizeBytes =
        d.stringTableOffset - d.textifiedCalleeOffset ∧
      d.getStringTableSizeBytes = d.textifiedCalleeData.length ∧
      d.stringTableData.length = d.data.length - d.stringTableOffset := by
  obtain ⟨h1, h2, h3⟩ := hwf
  refine ⟨rfl, ?_, ?_⟩
  · rw [textifiedCalleeData, sliceRef, List.length_take, List.length_drop]
    unfold getStringTableSizeBytes
    omega
  · rw [stringTableData, List.length_drop]

/-- Witness for C10 at a concrete container: the section invariant holds,
the reported value is 2 (the textified-callee section length) while the
string-table section is 3 bytes long. -/
theorem C10_stringTableSize_witness :
    ({ lexicalDataOffset := 1, textifiedCalleeOffset := 2,
       stringTableOffset := 4, data := [10, 11, 12, 13, 14, 15, 16] } :
        DebugInfo).wf ∧
      (({ lexicalDataOffset := 1, textifiedCalleeOffset := 2,
          stringTableOffset := 4, data := [10, 11, 12, 13, 14, 15, 16] } :
            DebugInfo).getStringTableSizeBytes =
          ({ lexicalDataOffset := 1, textifiedCalleeOffset := 2,
             stringTableOffset := 4, data := [10, 11, 12, 13, 14, 15, 16] } :
               DebugInfo).stringTableOffset -
            ({ lexicalDataOffset := 1, textifiedCalleeOffset := 2,
               stringTableOffset := 4, data := [10, 11, 12, 13, 14, 15, 16] } :
                 DebugInfo).textifiedCalleeOffset ∧
        ({ lexicalDataOffset := 1, textifiedCalleeOffset := 2,
           stringTableOffset := 4, data := [10, 11, 12, 13, 14, 15, 16] } :
             DebugInfo).getStringTableSizeBytes =
          ({ lexicalDataOffset := 1, textifiedCalleeOffset := 2,
             stringTableOffset := 4, data := [10, 11, 12, 13, 14, 15, 16] } :
               DebugInfo).textifiedCalleeData.length ∧
        ({ lexicalDataOffset := 1, textifiedCalleeOffset := 2,
           stringTableOffset := 4, data := [10, 11, 12, 13, 14, 15, 16] } :
             DebugInfo).stringTableData.length =
          ({ lexicalDataOffset := 1, textifiedCalleeOffset := 2,
             stringTableOffset := 4, data := [10, 11, 12, 13, 14, 15, 16] } :
               DebugInfo).data.length -
            ({ lexicalDataOffset := 1, textifiedCalleeOffset := 2,
               stringTableOffset := 4, data := [10, 11, 12, 13, 14, 15, 16] } :
                 DebugInfo).stringTableOffset) :=
  ⟨by decide, C10_stringTableSize _ (by decide)⟩

/-! ## The debug string table (appendString) -/

/-- Lookup in the string-table index (the DenseMap stringTableIndex_ of
DebugInfo.h lines 362-363, modelled as an association list). -/
def lookupIndex : List (String × Nat) → String → Option Nat
  | [], _ => none
  | (k, v) :: rest, s => if k = s then some v else lookupIndex rest s

/-- Modelled from the spec: debug strings are encoded as size-prefixed
UTF8 payloads in the string table (DebugInfo.h lines 357-360). -/
def encodeDebugString (s : String) : List Nat :=
  uleb s.utf8ByteSize ++ (s.toUTF8.toList.map fun b => b.toNat)

namespace DebugInfoGenerator

/-- Modelled from the spec and the appendString doc comment
(DebugInfo.h lines 375-377): the string is appended to the string table
only if not already interned, otherwise its existing offset is reused.
Returns the updated generator and the offset used for the string. -/
def appendStringEntry (g : DebugInfoGenerator) (s : String) :
    DebugInfoGenerator × Nat :=
  match lookupIndex g.stringTableIndex s with
  | some off => (g, off)
  | none =>
    ({ g with
        stringTable := g.stringTable ++ encodeDebugString s,
        stringTableIndex := (s, g.stringTable.length) :: g.stringTableIndex },
      g.stringTable.length)

/-- Sequence of appendString calls, one per string. -/
def appendStrings (g : DebugInfoGenerator) : List String → DebugInfoGenerator
  | [] => g
  | s :: rest => appendStrings (g.appendStringEntry s).1 rest

/-- Keys currently interned in the string-table index. -/
def indexKeys (g : DebugInfoGenerator) : List String :=
  g.stringTableIndex.map Prod.fst

end DebugInfoGenerator

theorem lookupIndex_eq_none_iff (idx : List (String × Nat)) (s : String) :
    lookupIndex idx s = none ↔ s ∉ idx.map Prod.fst := by
  induction idx with
  | nil => simp [lookupIndex]
  | cons kv rest ih =>
    obtain ⟨k, v⟩ := kv
    by_cases hk : k = s
    · subst hk
      simp [lookupIndex]
    · rw [lookupIndex, if_neg hk]
      simp only [List.map_cons, List.mem_cons]
      rw [ih]
      constructor
      · intro h hmem
        rcases hmem with h1 | h1
        · exact hk h1.symm
        · exact h h1
      · intro h hmem
        exact h (Or.inr hmem)

theorem appendStringEntry_keys (g : DebugInfoGenerator) (s : String) :
    ((g.appendStringEntry s).1.indexKeys.toFinset =
        insert s g.indexKeys.toFinset) ∧
      (g.indexKeys.Nodup → (g.appendStringEntry s).1.indexKeys.Nodup) := by
  cases hlook : lookupIndex g.stringTableIndex s with
  | some off =>
    have hmem : s ∈ g.indexKeys := by
      by_contra hnot
      have hn : lookupIndex g.stringTableIndex s = none :=
        (lookupIndex_eq_none_iff _ _).mpr hnot
      rw [hlook] at hn
      exact absurd hn (by simp)
    constructor
    · rw [DebugInfoGenerator.appendStringEntry, hlook]
      have : s ∈ g.indexKeys.toFinset := List.mem_toFinset.mpr hmem
      rw [Finset.insert_eq_self.mpr this]
    · intro h
      rw [DebugInfoGenerator.appendStringEntry, hlook]
      exact h
  | none =>
    have hnot : s ∉ g.indexKeys :=
      (lookupIndex_eq_none_iff g.stringTableIndex s).mp hlook
    constructor
    · rw [DebugInfoGenerator.appendStringEntry, hlook]
      simp [DebugInfoGenerator.indexKeys]
    · intro h
      rw [DebugInfoGenerator.appendStringEntry, hlook]
      exact List.nodup_cons.mpr ⟨hnot, h⟩

theorem appendStrings_keys_toFinset :
    ∀ (ss : List String) (g : DebugInfoGenerator),
      (g.appendStrings ss).indexKeys.toFinset =
        ss.toFinset ∪ g.indexKeys.toFinset := by
  intro ss
  induction ss with
  | nil => intro g; simp [DebugInfoGenerator.appendStrings]
  | cons s rest ih =>
    intro g
    rw [DebugInfoGenerator.appendStrings, ih,
      (appendStringEntry_keys g s).1]
    ext x
    simp only [Finset.mem_union, List.mem_toFinset, Finset.mem_insert,
      List.mem_cons]
    tauto

theorem appendStrings_keys_nodup :
    ∀ (ss : List String) (g : DebugInfoGenerator),
      g.indexKeys.Nodup → (g.appendStrings ss).indexKeys.Nodup := by
  intro ss
  induction ss with
  | nil => intro g h; exact h
  | cons s rest ih =>
    intro g h
    exact ih _ ((appendStringEntry_keys g s).2 h)

/-- Claim C7: appending the same string twice to the generator string table
yields the same string-table offset both times (and leaves the generator
unchanged the second time), and after appending any sequence of strings to
a fresh generator the string-table index holds exactly one entry per
distinct string appended. -/
theorem C7_stringDedup (g : DebugInfoGenerator) (s : String)
    (ss : List String) :
    ((g.appendStringEntry s).1.appendStringEntry s = g.appendStringEntry s) ∧
      (({} : DebugInfoGenerator).appendStrings ss).stringTableIndex.length =
        ss.toFinset.card := by
  constructor
  · cases hlook : lookupIndex g.stringTableIndex s with
    | some off =>
      have h1 : g.appendStringEntry s = (g, off) := by
        rw [DebugInfoGenerator.appendStringEntry, hlook]
      rw [h1]
      exact h1
    | none =>
      have h1 : g.appendStringEntry s =
          ({ g with
              stringTable := g.stringTable ++ encodeDebugString s,
              stringTableIndex :=
                (s, g.stringTable.length) :: g.stringTableIndex },
            g.stringTable.length) := by
        rw [DebugInfoGenerator.appendStringEntry, hlook]
      rw [h1, DebugInfoGenerator.appendStringEntry]
      simp [lookupIndex]
  · have hnodup : (({} : DebugInfoGenerator).appendStrings ss).indexKeys.Nodup :=
      appendStrings_keys_nodup ss {} (by simp [DebugInfoGenerator.indexKeys])
    have hset := appendStrings_keys_toFinset ss {}
    have hlen :
        (({} : DebugInfoGenerator).appendStrings ss).indexKeys.length =
          (({} : DebugInfoGenerator).appendStrings ss).stringTableIndex.length := by
      rw [DebugInfoGenerator.indexKeys, List.length_map]
    rw [← hlen, ← List.toFinset_card_of_nodup hnodup, hset]
    simp [DebugInfoGenerator.indexKeys]

end HermesDebugInfo

namespace HermesStackTraces

/-! ## StackTracesTree

The StackTracesTree sources (hermes/VM/StackTracesTree.h / .cpp) are not in
the repository snapshot; only the unit test StackTracesTreeTest.cpp is.
The tree is modelled from the spec (sections 3 and 4.4): a rooted tree of
unique (name, sourceLoc) call-frame identities, a head pointer for the
currently active frame, one push per call and one pop per exited call.
The head pointer and each node's parent back-reference are represented by
the path of node keys from the root to the head; children are the ownership
edges. -/

/-- Source location of a call site, from the test's use of
node->sourceLoc (scriptName, lineNo, columnNo); scriptName is a
string-table id in the source, modelled directly as the string. -/
structure TreeSourceLoc where
  scriptName : String
  lineNo : Nat
  columnNo : Nat
deriving DecidableEq, Repr

/-- Identity key of a stack-trace tree node: deduplication is by the
(name, sourceLoc) pair (spec section 3, StackTracesTreeNode invariant). -/
structure NodeData where
  name : String
  sourceLoc : TreeSourceLoc
deriving DecidableEq, Repr

/-- Modelled from the spec (section 3): a tree node owns its ordered list
of children; the parent back-reference is kept implicitly as the path from
the root. -/
inductive STNode where
  | mk (data : NodeData) (children : List STNode)

/-- Key of a node. -/
def STNode.data : STNode → NodeData
  | .mk d _ => d

/-- Owned children of a node. -/
def STNode.children : STNode → List STNode
  | .mk _ cs => cs

/-- Keys of a children list. -/
def childKeys (cs : List STNode) : List NodeData := cs.map STNode.data

/-- Modelled from the spec (section 4.4 call transition): walk the children
looking for an existing child with the matching key; reuse it (descending
with the continuation) if found, else create a new child at the end of the
list and descend into it. -/
def insertChildAux (k : NodeData) (f : STNode → STNode) :
    List STNode → List STNode
  | [] => [f (.mk k [])]
  | c :: siblings =>
    if c.data = k then f c :: siblings else c :: insertChildAux k f siblings

/-- Modelled from the spec (section 4.4): find-or-create the whole chain of
nodes along a path of call-site keys, reusing any existing node with a
matching key at each level. -/
def insertPath : List NodeData → STNode → STNode
  | [], n => n
  | k :: rest, .mk d cs => .mk d (insertChildAux k (insertPath rest) cs)

/-- First child with the given key, if any. -/
def findChild (k : NodeData) : List STNode → Option STNode
  | [] => none
  | c :: cs => if c.data = k then some c else findChild k cs

/-- Node reached from a node by following a path of keys. -/
def nodeAt : List NodeData → STNode → Option STNode
  | [], n => some n
  | k :: rest, n =>
    match findChild k n.children with
    | none => none
    | some c => nodeAt rest c

/-- Well-formedness of a node: no two children of the same parent share an
identical (name, sourceLoc) key, recursively (the central invariant of spec
section 3). -/
inductive STNode.wfNode : STNode → Prop
  | mk (d : NodeData) (cs : List STNode) :
      (childKeys cs).Nodup → (∀ c ∈ cs, STNode.wfNode c) →
      STNode.wfNode (.mk d cs)

/-- Key of the synthetic root node: sentinel name "(root)" and an empty
source location (spec section 3 and the test's expected (root) :0:0). -/
def rootData : NodeData :=
  { name := "(root)", sourceLoc := { scriptName := "", lineNo := 0, columnNo := 0 } }

/-- Modelled from the spec (section 3): the tree owns the root node (and
through it every node); the head pointer is the path of keys from the root
to the node of the currently active call stack frame. -/
structure StackTracesTree where
  root : STNode := .mk rootData []
  headStack : List NodeData := []

/-- Tree freshly created when tracking is enabled at idle: head starts at
root. -/
def emptyTree : StackTracesTree := {}

namespace StackTracesTree

/-- Modelled from the spec (section 4.4 call transition): a call pushes the
child of head with the given key, creating it only if no child of head has
that key, and advances head to it. -/
def pushCallStack (t : StackTracesTree) (k : NodeData) : StackTracesTree :=
  { root := insertPath (t.headStack ++ [k]) t.root,
    headStack := t.headStack ++ [k] }

/-- Modelled from the spec (section 4.4 return transition): a return or
unwound frame moves head to its parent; popping when head is already root
is the fatal invariant violation, modelled as none. -/
def popCallStack (t : StackTracesTree) : Option StackTracesTree :=
  match t.headStack with
  | [] => none
  | _ :: _ => some { t with headStack := t.headStack.dropLast }

/-- Head-at-root test (StackTracesTree::isHeadAtRoot used by the test's
ASSERT_RUN_TRACE). -/
def isHeadAtRoot (t : StackTracesTree) : Bool := t.headStack.isEmpty

end StackTracesTree

/-- Interpreter call events driving the tree (spec section 4.4): a call
entry, a normal return, or one frame of an exception unwind.  Returns and
throw unwinds drive the same pop mechanism. -/
inductive TraceEvent where
  | call (k : NodeData)
  | ret
  | throwUnwind
deriving DecidableEq, Repr

/-- Number of call events. -/
def callCount : List TraceEvent → Nat
  | [] => 0
  | .call _ :: es => callCount es + 1
  | .ret :: es => callCount es
  | .throwUnwind :: es => callCount es

/-- Number of exit events (returns plus unwound frames). -/
def exitCount : List TraceEvent → Nat
  | [] => 0
  | .call _ :: es => exitCount es
  | .ret :: es => exitCount es + 1
  | .throwUnwind :: es => exitCount es + 1

/-- Modelled from the spec (section 4.4): the tree state machine run over a
sequence of interpreter events; a pop with head already at root is the
fatal invariant violation, propagated as none. -/
def runEvents : StackTracesTree → List TraceEvent → Option StackTracesTree
  | t, [] => some t
  | t, .call k :: es => runEvents (t.pushCallStack k) es
  | t, .ret :: es =>
    match t.popCallStack with
    | none => none
    | some t2 => runEvents t2 es
  | t, .throwUnwind :: es =>
    match t.popCallStack with
    | none => none
    | some t2 => runEvents t2 es

/-- Well-balanced event sequence (spec section 8, head-returns-to-root
property): every call eventually exits by return or exception, and no
prefix exits more frames than it has entered. -/
def wellBalanced (es : List TraceEvent) : Prop :=
  (∀ n ≤ es.length, exitCount (es.take n) ≤ callCount (es.take n)) ∧
    exitCount es = callCount es

instance (es : List TraceEvent) : Decidable (wellBalanced es) := by
  unfold wellBalanced; infer_instance

/-! ## Structural lemmas about the tree -/

theorem insertPath_data (p : List NodeData) (n : STNode) :
    (insertPath p n).data = n.data := by
  cases p with
  | nil => rfl
  | cons k rest => cases n with | mk d cs => rfl

theorem childKeys_insertChildAux (k : NodeData) (f : STNode → STNode)
    (hf : ∀ c, (f c).data = c.data) :
    ∀ cs : List STNode,
      childKeys (insertChildAux k f cs) =
        if k ∈ childKeys cs then childKeys cs else childKeys cs ++ [k] := by
  intro cs
  induction cs with
  | nil =>
    rw [insertChildAux]
    have hdk : (f (STNode.mk k [])).data = k := by rw [hf]; rfl
    simp [childKeys, hdk]
  | cons c rest ih =>
    by_cases hc : c.data = k
    · rw [insertChildAux, if_pos hc]
      have : k ∈ childKeys (c :: rest) := by
        rw [childKeys, List.map_cons, hc]
        exact List.mem_cons_self _ _
      rw [if_pos this]
      simp [childKeys, hf, hc]
    · rw [insertChildAux, if_neg hc]
      have hmem : (k ∈ childKeys (c :: rest)) ↔ (k ∈ childKeys rest) := by
        simp only [childKeys, List.map_cons, List.mem_cons]
        constructor
        · rintro (h | h)
          · exact absurd h.symm hc
          · exact h
        · exact Or.inr
      by_cases hk : k ∈ childKeys rest
      · rw [if_pos (hmem.mpr hk)]
        simp only [childKeys, List.map_cons] at *
        rw [ih, if_pos hk]
      · rw [if_neg (fun h => hk (hmem.mp h))]
        simp only [childKeys, List.map_cons] at *
        rw [ih, if_neg hk]
        rfl

theorem mem_insertChildAux {k : NodeData} {f : STNode → STNode}
    {x : STNode} :
    ∀ {cs : List STNode}, x ∈ insertChildAux k f cs →
      (∃ c ∈ cs, x = c ∨ x = f c) ∨ x = f (.mk k []) := by
  intro cs
  induction cs with
  | nil =>
    intro hx
    rw [insertChildAux] at hx
    simp only [List.mem_singleton] at hx
    exact Or.inr hx
  | cons c rest ih =>
    intro hx
    rw [insertChildAux] at hx
    by_cases hc : c.data = k
    · rw [if_pos hc] at hx
      rcases List.mem_cons.mp hx with h | h
      · exact Or.inl ⟨c, List.mem_cons_self _ _, Or.inr h⟩
      · exact Or.inl ⟨x, List.mem_cons_of_mem _ h, Or.inl rfl⟩
    · rw [if_neg hc] at hx
      rcases List.mem_cons.mp hx with h | h
      · exact Or.inl ⟨c, List.mem_cons_self _ _, Or.inl h⟩
      · rcases ih h with ⟨c2, hc2, hx2⟩ | h2
        · exact Or.inl ⟨c2, List.mem_cons_of_mem _ hc2, hx2⟩
        · exact Or.inr h2

theorem wfNode_leaf (k : NodeData) : (STNode.mk k []).wfNode :=
  STNode.wfNode.mk k [] (by simp [childKeys])
    (fun c hc => absurd hc (by simp))

theorem insertPath_wf :
    ∀ (p : List NodeData) (n : STNode), n.wfNode → (insertPath p n).wfNode := by
  intro p
  induction p with
  | nil => intro n h; exact h
  | cons k rest ih =>
    intro n hwf
    cases n with
    | mk d cs =>
      cases hwf with
      | mk _ _ hnd hch =>
        rw [insertPath]
        refine STNode.wfNode.mk d _ ?_ ?_
        · rw [childKeys_insertChildAux k _ (insertPath_data rest) cs]
          by_cases hk : k ∈ childKeys cs
          · rw [if_pos hk]; exact hnd
          · rw [if_neg hk]
            refine List.Nodup.append hnd (List.nodup_singleton k) ?_
            intro a ha hb
            rw [List.mem_singleton] at hb
            subst hb
            exact hk ha
        · intro c hc
          rcases mem_insertChildAux hc with ⟨c2, hc2, hx⟩ | h2
          · rcases hx with h3 | h3
            · rw [h3]; exact hch c2 hc2
            · rw [h3]; exact ih c2 (hch c2 hc2)
          · rw [h2]
            exact ih _ (wfNode_leaf k)

theorem findChild_insertChildAux (k : NodeData) (f : STNode → STNode)
    (hf : ∀ c, (f c).data = c.data) :
    ∀ cs : List STNode,
      ∃ c0, findChild k (insertChildAux k f cs) = some (f c0) ∧
        (findChild k cs = some c0 ∨ (findChild k cs = none ∧ c0 = .mk k [])) := by
  intro cs
  induction cs with
  | nil =>
    refine ⟨.mk k [], ?_, Or.inr ⟨rfl, rfl⟩⟩
    rw [insertChildAux, findChild, if_pos (by rw [hf]; rfl)]
  | cons c rest ih =>
    by_cases hc : c.data = k
    · refine ⟨c, ?_, Or.inl ?_⟩
      · rw [insertChildAux, if_pos hc, findChild, if_pos (by rw [hf, hc])]
      · rw [findChild, if_pos hc]
    · obtain ⟨c0, h1, h2⟩ := ih
      refine ⟨c0, ?_, ?_⟩
      · rw [insertChildAux, if_neg hc, findChild, if_neg hc]
        exact h1
      · rw [findChild, if_neg hc]
        exact h2

theorem findChild_mem {k : NodeData} {c : STNode} :
    ∀ {cs : List STNode}, findChild k cs = some c → c ∈ cs := by
  intro cs
  induction cs with
  | nil => intro h; exact absurd h (by rw [findChild]; simp)
  | cons c2 rest ih =>
    intro h
    rw [findChild] at h
    by_cases hc : c2.data = k
    · rw [if_pos hc] at h
      rw [Option.some_inj] at h
      subst h
      exact List.mem_cons_self _ _
    · rw [if_neg hc] at h
      exact List.mem_cons_of_mem _ (ih h)

theorem wf_nodeAt :
    ∀ (s : List NodeData) (n m : STNode), n.wfNode → nodeAt s n = some m →
      m.wfNode := by
  intro s
  induction s with
  | nil =>
    intro n m hwf h
    rw [nodeAt, Option.some_inj] at h
    subst h
    exact hwf
  | cons k rest ih =>
    intro n m hwf h
    rw [nodeAt] at h
    cases hfind : findChild k n.children with
    | none => rw [hfind] at h; exact absurd h (by simp)
    | some c =>
      rw [hfind] at h
      have hcmem : c ∈ n.children := findChild_mem hfind
      have hcwf : c.wfNode := by
        cases n with
        | mk d cs =>
          cases hwf with
          | mk _ _ hnd hch => exact hch c hcmem
      exact ih c m hcwf h

theorem nodeAt_insertPath_key :
    ∀ (s : List NodeData) (k : NodeData) (n : STNode),
      ∃ m, nodeAt s (insertPath (s ++ [k]) n) = some m ∧
        k ∈ childKeys m.children := by
  intro s
  induction s with
  | nil =>
    intro k n
    cases n with
    | mk d cs =>
      refine ⟨insertPath ([] ++ [k]) (.mk d cs), rfl, ?_⟩
      rw [List.nil_append, insertPath, STNode.children,
        childKeys_insertChildAux k _ (insertPath_data []) cs]
      by_cases hk : k ∈ childKeys cs
      · rw [if_pos hk]; exact hk
      · rw [if_neg hk]; simp
  | cons k1 srest ih =>
    intro k n
    cases n with
    | mk d cs =>
      rw [List.cons_append, insertPath]
      obtain ⟨c0, hfind, _⟩ :=
        findChild_insertChildAux k1 (insertPath (srest ++ [k]))
          (insertPath_data _) cs
      obtain ⟨m, hm, hkm⟩ := ih k c0
      refine ⟨m, ?_, hkm⟩
      rw [nodeAt, STNode.children, hfind]
      exact hm

theorem nodeAt_insertPath_of_nodeAt :
    ∀ (s : List NodeData) (k2 : NodeData) (n m : STNode),
      nodeAt s n = some m →
      ∃ m2, nodeAt s (insertPath (s ++ [k2]) n) = some m2 ∧
        (childKeys m2.children = childKeys m.children ∨
          childKeys m2.children = childKeys m.children ++ [k2]) := by
  intro s
  induction s with
  | nil =>
    intro k2 n m h
    rw [nodeAt, Option.some_inj] at h
    subst h
    cases n with
    | mk d cs =>
      refine ⟨insertPath ([] ++ [k2]) (.mk d cs), rfl, ?_⟩
      rw [List.nil_append, insertPath, STNode.children,
        childKeys_insertChildAux k2 _ (insertPath_data []) cs]
      by_cases hk : k2 ∈ childKeys cs
      · rw [if_pos hk]; exact Or.inl rfl
      · rw [if_neg hk]; exact Or.inr rfl
  | cons k1 srest ih =>
    intro k2 n m h
    cases n with
    | mk d cs =>
      rw [nodeAt, STNode.children] at h
      cases hfind : findChild k1 cs with
      | none => rw [hfind] at h; exact absurd h (by simp)
      | some c =>
        rw [hfind] at h
        obtain ⟨c0, hfind2, hcase⟩ :=
          findChild_insertChildAux k1 (insertPath (srest ++ [k2]))
            (insertPath_data _) cs
        have hc0 : c0 = c := by
          rcases hcase with h2 | ⟨h2, _⟩
          · rw [hfind] at h2
            exact (Option.some_inj.mp h2).symm
          · rw [hfind] at h2
            exact absurd h2 (by simp)
        subst hc0
        obtain ⟨m2, hm2, hkeys⟩ := ih k2 c0 m h
        refine ⟨m2, ?_, hkeys⟩
        rw [List.cons_append, insertPath, nodeAt, STNode.children, hfind2]
        exact hm2

/-! ## Behavior of the tree over event sequences -/

theorem popCallStack_of_ne_nil {t : StackTracesTree}
    (hne : t.headStack ≠ []) :
    ∃ t2, t.popCallStack = some t2 ∧ t2.root = t.root ∧
      t2.headStack = t.headStack.dropLast ∧
      t2.headStack.length + 1 = t.headStack.length := by
  cases hcase : t.headStack with
  | nil => exact absurd hcase hne
  | cons a rest =>
    refine ⟨{ t with headStack := (a :: rest).dropLast },
      ?_, rfl, ?_, ?_⟩
    · rw [StackTracesTree.popCallStack, hcase]
    · rfl
    · simp

theorem runEvents_wf :
    ∀ (es : List TraceEvent) (t t2 : StackTracesTree), t.root.wfNode →
      runEvents t es = some t2 → t2.root.wfNode := by
  intro es
  induction es with
  | nil =>
    intro t t2 hwf h
    rw [runEvents, Option.some_inj] at h
    rw [← h]
    exact hwf
  | cons e es ih =>
    intro t t2 hwf h
    cases e with
    | call k =>
      rw [runEvents] at h
      exact ih _ t2 (insertPath_wf _ _ hwf) h
    | ret =>
      rw [runEvents] at h
      cases hpop : t.popCallStack with
      | none => rw [hpop] at h; exact absurd h (by simp)
      | some t1 =>
        rw [hpop] at h
        have hroot : t1.root = t.root := by
          cases hcase : t.headStack with
          | nil => rw [StackTracesTree.popCallStack, hcase] at hpop; exact absurd hpop (by simp)
          | cons a rest =>
            rw [StackTracesTree.popCallStack, hcase, Option.some_inj] at hpop
            rw [← hpop]
        exact ih t1 t2 (hroot ▸ hwf) h
    | throwUnwind =>
      rw [runEvents] at h
      cases hpop : t.popCallStack with
      | none => rw [hpop] at h; exact absurd h (by simp)
      | some t1 =>
        rw [hpop] at h
        have hroot : t1.root = t.root := by
          cases hcase : t.headStack with
          | nil => rw [StackTracesTree.popCallStack, hcase] at hpop; exact absurd hpop (by simp)
          | cons a rest =>
            rw [StackTracesTree.popCallStack, hcase, Option.some_inj] at hpop
            rw [← hpop]
        exact ih t1 t2 (hroot ▸ hwf) h

theorem runEvents_balanced :
    ∀ (es : List TraceEvent) (t : StackTracesTree),
      (∀ n ≤ es.length, exitCount (es.take n) ≤
        callCount (es.take n) + t.headStack.length) →
      ∃ t2, runEvents t es = some t2 ∧
        t2.headStack.length + exitCount es =
          t.headStack.length + callCount es := by
  intro es
  induction es with
  | nil =>
    intro t _
    exact ⟨t, rfl, by simp [callCount, exitCount]⟩
  | cons e es ih =>
    intro t h
    have hpushlen : ∀ k, (t.pushCallStack k).headStack.length =
        t.headStack.length + 1 := by
      intro k
      simp [StackTracesTree.pushCallStack]
    cases e with
    | call k =>
      have h2 : ∀ n ≤ es.length, exitCount (es.take n) ≤
          callCount (es.take n) + (t.pushCallStack k).headStack.length := by
        intro n hn
        have := h (n + 1) (by simp; omega)
        rw [List.take_succ_cons] at this
        simp only [exitCount, callCount] at this
        rw [hpushlen k]
        omega
      obtain ⟨t2, hrun, hcnt⟩ := ih (t.pushCallStack k) h2
      refine ⟨t2, by rw [runEvents]; exact hrun, ?_⟩
      simp only [callCount, exitCount]
      rw [hpushlen k] at hcnt
      omega
    | ret =>
      have h1 := h 1 (by simp)
      rw [List.take_succ_cons, List.take_zero] at h1
      simp only [exitCount, callCount] at h1
      have hne : t.headStack ≠ [] := by
        intro hemp
        rw [hemp] at h1
        simp at h1
      obtain ⟨t1, hpop, _, _, hlen⟩ := popCallStack_of_ne_nil hne
      have h2 : ∀ n ≤ es.length, exitCount (es.take n) ≤
          callCount (es.take n) + t1.headStack.length := by
        intro n hn
        have := h (n + 1) (by simp; omega)
        rw [List.take_succ_cons] at this
        simp only [exitCount, callCount] at this
        omega
      obtain ⟨t2, hrun, hcnt⟩ := ih t1 h2
      refine ⟨t2, ?_, ?_⟩
      · rw [runEvents, hpop]
        exact hrun
      · simp only [callCount, exitCount]
        omega
    | throwUnwind =>
      have h1 := h 1 (by simp)
      rw [List.take_succ_cons, List.take_zero] at h1
      simp only [exitCount, callCount] at h1
      have hne : t.headStack ≠ [] := by
        intro hemp
        rw [hemp] at h1
        simp at h1
      obtain ⟨t1, hpop, _, _, hlen⟩ := popCallStack_of_ne_nil hne
      have h2 : ∀ n ≤ es.length, exitCount (es.take n) ≤
          callCount (es.take n) + t1.headStack.length := by
        intro n hn
        have := h (n + 1) (by simp; omega)
        rw [List.take_succ_cons] at this
        simp only [exitCount, callCount] at this
        omega
      obtain ⟨t2, hrun, hcnt⟩ := ih t1 h2
      refine ⟨t2, ?_, ?_⟩
      · rw [runEvents, hpop]
        exact hrun
      · simp only [callCount, exitCount]
        omega

/-- Claim C2: for any well-balanced sequence of calls, returns and throw
unwinds (every call eventually exits, and no prefix exits more frames than
it entered), the run from a fresh tree succeeds and ends with head equal to
root; more strongly, after any prefix on which the interpreter native call
stack is empty (calls entered equal frames exited), head equals root. -/
theorem C2_headAtRoot (es : List TraceEvent) (hbal : wellBalanced es) :
    (∃ t2, runEvents emptyTree es = some t2 ∧ t2.isHeadAtRoot = true) ∧
      (∀ n, callCount (es.take n) = exitCount (es.take n) →
        ∃ tn, runEvents emptyTree (es.take n) = some tn ∧
          tn.isHeadAtRoot = true) := by
  have hpre : ∀ n, ∃ tn, runEvents emptyTree (es.take n) = some tn ∧
      tn.headStack.length + exitCount (es.take n) =
        callCount (es.take n) := by
    intro n
    have h := runEvents_balanced (es.take n) emptyTree ?_
    · obtain ⟨tn, h1, h2⟩ := h
      exact ⟨tn, h1, by simpa [emptyTree] using h2⟩
    · intro m hm
      rw [List.take_take]
      have hmin : min m n ≤ es.length := by
        have := List.length_take n es
        omega
      have := hbal.1 (min m n) hmin
      simpa [emptyTree] using this
  constructor
  · obtain ⟨t2, h1, h2⟩ := hpre es.length
    rw [List.take_length] at h1 h2
    refine ⟨t2, h1, ?_⟩
    have hlen : t2.headStack.length = 0 := by
      have := hbal.2
      omega
    rw [StackTracesTree.isHeadAtRoot, List.isEmpty_iff_length_eq_zero, hlen]
  · intro n hn
    obtain ⟨tn, h1, h2⟩ := hpre n
    refine ⟨tn, h1, ?_⟩
    have hlen : tn.headStack.length = 0 := by omega
    rw [StackTracesTree.isHeadAtRoot, List.isEmpty_iff_length_eq_zero, hlen]

/-! ## Deduplication of repeated and distinct call sites -/

/-- Event sequence calling the same function from the same call site N
times, each call returning normally. -/
def repeatCallRet : NodeData → Nat → List TraceEvent
  | _, 0 => []
  | k, n + 1 => .call k :: .ret :: repeatCallRet k n

theorem run_repeatCallRet :
    ∀ (N : Nat) (k : NodeData) (t : StackTracesTree),
      ∃ t2, runEvents t (repeatCallRet k N) = some t2 ∧
        t2.headStack = t.headStack ∧
        t2.root = (insertPath (t.headStack ++ [k]))^[N] t.root := by
  intro N
  induction N with
  | zero =>
    intro k t
    exact ⟨t, rfl, rfl, rfl⟩
  | succ N ih =>
    intro k t
    have hne : (t.pushCallStack k).headStack ≠ [] := by
      simp [StackTracesTree.pushCallStack]
    obtain ⟨t1, hpop, hroot, hhead, _⟩ := popCallStack_of_ne_nil hne
    have hroot1 : t1.root = insertPath (t.headStack ++ [k]) t.root := hroot
    have hhead1 : t1.headStack = t.headStack := by
      rw [hhead]
      show (t.headStack ++ [k]).dropLast = t.headStack
      exact List.dropLast_concat
    obtain ⟨t2, h1, h2, h3⟩ := ih k t1
    refine ⟨t2, ?_, by rw [h2, hhead1], ?_⟩
    · rw [repeatCallRet, runEvents, runEvents, hpop]
      exact h1
    · rw [h3, hhead1, hroot1, Function.iterate_succ_apply]


theorem runEvents_append :
    ∀ (es1 es2 : List TraceEvent) (t : StackTracesTree),
      runEvents t (es1 ++ es2) =
        (runEvents t es1).bind fun t2 => runEvents t2 es2 := by
  intro es1
  induction es1 with
  | nil => intro es2 t; rfl
  | cons e es1 ih =>
    intro es2 t
    cases e with
    | call k =>
      rw [List.cons_append, runEvents, runEvents, ih]
    | ret =>
      rw [List.cons_append, runEvents, runEvents]
      cases hpop : t.popCallStack with
      | none => rfl
      | some t2 => exact ih es2 t2
    | throwUnwind =>
      rw [List.cons_append, runEvents, runEvents]
      cases hpop : t.popCallStack with
      | none => rfl
      | some t2 => exact ih es2 t2

theorem iterate_insertPath_wf (p : List NodeData) (N : Nat) (r : STNode)
    (hwf : r.wfNode) : ((insertPath p)^[N] r).wfNode := by
  induction N with
  | zero => exact hwf
  | succ N ih =>
    rw [Function.iterate_succ_apply']
    exact insertPath_wf p _ ih

theorem count_after_iterate (s : List NodeData) (k : NodeData) :
    ∀ (N : Nat), 1 ≤ N → ∀ r : STNode, r.wfNode →
      ∃ m, nodeAt s ((insertPath (s ++ [k]))^[N] r) = some m ∧
        (childKeys m.children).count k = 1 := by
  intro N
  induction N with
  | zero => intro h; omega
  | succ N ih =>
    intro _ r hwf
    by_cases hN : 1 ≤ N
    · rw [Function.iterate_succ_apply]
      exact ih hN _ (insertPath_wf _ _ hwf)
    · have hN0 : N = 0 := by omega
      subst hN0
      rw [Function.iterate_one]
      obtain ⟨m, hm, hkm⟩ := nodeAt_insertPath_key s k r
      refine ⟨m, hm, ?_⟩
      have hwf2 : (insertPath (s ++ [k]) r).wfNode := insertPath_wf _ _ hwf
      have hmwf : m.wfNode := wf_nodeAt s _ m hwf2 hm
      have hnd : (childKeys m.children).Nodup := by
        cases m with
        | mk d cs =>
          cases hmwf with
          | mk _ _ hnd2 _ => exact hnd2
      exact List.count_eq_one_of_mem hnd hkm

/-- Claim C3: deduplication by (name, sourceLoc).  Calling the same
function from the same call site N times (N at least 2) leaves exactly one
child with that key under the call-site parent; calling from two distinct
call sites leaves two distinct sibling children, one per key; and over any
event sequence the tree keeps the invariant that no two children of the
same parent share an identical (name, sourceLoc) key. -/
theorem C3_treeDedup (t : StackTracesTree) (hwf : t.root.wfNode)
    (k k1 k2 : NodeData) (N : Nat) (hN : 2 ≤ N) (hkk : k1 ≠ k2) :
    (∃ t2, runEvents t (repeatCallRet k N) = some t2 ∧
        t2.headStack = t.headStack ∧
        ∃ m, nodeAt t.headStack t2.root = some m ∧
          (childKeys m.children).count k = 1) ∧
      (∃ t3, runEvents t [.call k1, .ret, .call k2, .ret] = some t3 ∧
        t3.headStack = t.headStack ∧
        ∃ m, nodeAt t.headStack t3.root = some m ∧
          (childKeys m.children).count k1 = 1 ∧
          (childKeys m.children).count k2 = 1 ∧
          ∃ c1 c2, c1 ∈ m.children ∧ c2 ∈ m.children ∧
            c1.data = k1 ∧ c2.data = k2 ∧ c1 ≠ c2) ∧
      (∀ (es : List TraceEvent) (t4 : StackTracesTree),
        runEvents t es = some t4 → t4.root.wfNode) := by
  refine ⟨?_, ?_, fun es t4 h => runEvents_wf es t t4 hwf h⟩
  · obtain ⟨t2, h1, h2, h3⟩ := run_repeatCallRet N k t
    obtain ⟨m, hm, hcm⟩ :=
      count_after_iterate t.headStack k N (by omega) t.root hwf
    exact ⟨t2, h1, h2, m, by rw [h3]; exact hm, hcm⟩
  · obtain ⟨ta, ha1, ha2, ha3⟩ := run_repeatCallRet 1 k1 t
    obtain ⟨tb, hb1, hb2, hb3⟩ := run_repeatCallRet 1 k2 ta
    have hsplit : ([TraceEvent.call k1, .ret, .call k2, .ret] :
        List TraceEvent) = repeatCallRet k1 1 ++ repeatCallRet k2 1 := rfl
    have hrun : runEvents t [TraceEvent.call k1, .ret, .call k2, .ret] =
        some tb := by
      rw [hsplit, runEvents_append, ha1, Option.some_bind]
      exact hb1
    have hroot_b : tb.root =
        insertPath (t.headStack ++ [k2])
          (insertPath (t.headStack ++ [k1]) t.root) := by
      rw [hb3, ha2, ha3]
      simp [Function.iterate_one]
    obtain ⟨m1, hm1, hkm1⟩ := nodeAt_insertPath_key t.headStack k1 t.root
    obtain ⟨m2, hm2, hkeys⟩ :=
      nodeAt_insertPath_of_nodeAt t.headStack k2 _ m1 hm1
    obtain ⟨m2b, hm2b, hkm2b⟩ :=
      nodeAt_insertPath_key t.headStack k2
        (insertPath (t.headStack ++ [k1]) t.root)
    have hmeq : m2 = m2b := by
      rw [hm2] at hm2b
      exact Option.some_inj.mp hm2b
    subst hmeq
    have hk1mem : k1 ∈ childKeys m2.children := by
      rcases hkeys with h | h
      · rw [h]; exact hkm1
      · rw [h]; exact List.mem_append_left _ hkm1
    have hwfb : tb.root.wfNode := runEvents_wf _ t tb hwf hrun
    have hm2wf : m2.wfNode := by
      refine wf_nodeAt t.headStack tb.root m2 hwfb ?_
      rw [hroot_b]
      exact hm2
    have hnd : (childKeys m2.children).Nodup := by
      cases m2 with
      | mk d cs =>
        cases hm2wf with
        | mk _ _ hnd2 _ => exact hnd2
    obtain ⟨c1, hc1mem, hc1data⟩ := List.mem_map.mp hk1mem
    obtain ⟨c2, hc2mem, hc2data⟩ := List.mem_map.mp hkm2b
    refine ⟨tb, hrun, by rw [hb2, ha2], m2, by rw [hroot_b]; exact hm2,
      List.count_eq_one_of_mem hnd hk1mem,
      List.count_eq_one_of_mem hnd hkm2b,
      c1, c2, hc1mem, hc2mem, hc1data, hc2data, ?_⟩
    intro hceq
    rw [hceq] at hc1data
    rw [hc1data] at hc2data
    exact hkk hc2data

/-! ## Enabling tracking mid-execution (claim C9) -/

/-- Modelled from the spec (section 4.4 enable-while-mid-execution, section
9 design note) and the test comment at StackTracesTreeTest.cpp lines
137-148: enabling tracking inside a running call synthesizes the ancestor
chain for all currently active frames, and syncWithRuntimeStack also adds a
native stack frame for the enabling call itself, which the interpreter does
not pop. -/
def enableMidExecution (activeFrames : List NodeData)
    (enablingFrame : NodeData) : StackTracesTree :=
  { root := insertPath (activeFrames ++ [enablingFrame]) (.mk rootData []),
    headStack := activeFrames ++ [enablingFrame] }

/-- Iterated popCallStack. -/
def popN : Nat → StackTracesTree → Option StackTracesTree
  | 0, t => some t
  | n + 1, t =>
    match t.popCallStack with
    | none => none
    | some t2 => popN n t2

theorem popN_headStack_length :
    ∀ (n : Nat) (t : StackTracesTree), t.headStack.length = n →
      ∃ t2, popN n t = some t2 ∧ t2.headStack = [] ∧ t2.root = t.root := by
  intro n
  induction n with
  | zero =>
    intro t h
    exact ⟨t, rfl, List.length_eq_zero.mp h, rfl⟩
  | succ n ih =>
    intro t h
    have hne : t.headStack ≠ [] := by
      intro hemp
      rw [hemp] at h
      simp at h
    obtain ⟨t1, hpop, hroot, hhead, hlen⟩ := popCallStack_of_ne_nil hne
    obtain ⟨t2, h1, h2, h3⟩ := ih t1 (by omega)
    refine ⟨t2, ?_, h2, by rw [h3, hroot]⟩
    rw [popN, hpop]
    exact h1

/-- Claim C9: when allocation tracking is enabled inside a running call,
the enable operation synthesizes the tree chain for all currently active
frames plus one frame for the enabling call itself, and that call must be
popped exactly once despite not having pushed a matching node: one extra
pop rebalances the pairing, after which exactly one pop per remaining
active frame brings head back to root, and any further pop is the fatal
pop-past-root condition. -/
theorem C9_enableMidStack (fs : List NodeData) (nf : NodeData) :
    ∃ t1, (enableMidExecution fs nf).popCallStack = some t1 ∧
      t1.headStack = fs ∧
      (enableMidExecution fs nf).headStack = fs ++ [nf] ∧
      ∃ t2, popN fs.length t1 = some t2 ∧ t2.isHeadAtRoot = true ∧
        t2.popCallStack = none := by
  have hne : (enableMidExecution fs nf).headStack ≠ [] := by
    simp [enableMidExecution]
  obtain ⟨t1, hpop, hroot, hhead, _⟩ := popCallStack_of_ne_nil hne
  have hhead1 : t1.headStack = fs := by
    rw [hhead]
    show (fs ++ [nf]).dropLast = fs
    exact List.dropLast_concat
  obtain ⟨t2, h1, h2, _⟩ :=
    popN_headStack_length fs.length t1 (by rw [hhead1])
  refine ⟨t1, hpop, hhead1, rfl, t2, h1, ?_, ?_⟩
  · rw [StackTracesTree.isHeadAtRoot, h2]
    rfl
  · rw [StackTracesTree.popCallStack, h2]

/-! ## End-to-end scenario (claim C8) -/

/-- Rendering of one stack frame as the test renders it
(StackTracesTreeTest.cpp lines 75-81): name, space, scriptName, colon,
line, colon, column. -/
def renderFrame (d : NodeData) : String :=
  d.name ++ " " ++ d.sourceLoc.scriptName ++ ":" ++
    toString d.sourceLoc.lineNo ++ ":" ++ toString d.sourceLoc.columnNo

/-- Stack rendered for an allocation at the current head, innermost first,
ending at the synthetic root, as the test walks parent pointers. -/
def renderStackForHead (t : StackTracesTree) : List String :=
  (t.headStack.reverse.map renderFrame) ++ [renderFrame rootData]

/-- Modelled from the spec (section 8 end-to-end scenario) and the expected
trace of the BasicOperation test (StackTracesTreeTest.cpp lines 271-280):
running the source
"function bar() {return new Object();}; function foo() {return bar();}; foo();"
with tracking on from the start produces, before the allocation in bar,
call-entry events for the module wrapper global frame (test.js:1:1), the
top-level script body global frame (test.js:1:75), foo (test.js:1:66) and
bar (test.js:1:34). -/
def basicOperationEvents : List TraceEvent :=
  [.call { name := "global",
           sourceLoc := { scriptName := "test.js", lineNo := 1, columnNo := 1 } },
   .call { name := "global",
           sourceLoc := { scriptName := "test.js", lineNo := 1, columnNo := 75 } },
   .call { name := "foo",
           sourceLoc := { scriptName := "test.js", lineNo := 1, columnNo := 66 } },
   .call { name := "bar",
           sourceLoc := { scriptName := "test.js", lineNo := 1, columnNo := 34 } }]

/-- Claim C8: the end-to-end scenario yields, for the object allocated in
bar, the stack (innermost first) bar, foo, global, global, (root), each
frame annotated with its call-site line and column, with exactly two
global-scope frames; and after the four matching returns head is back at
root. -/
theorem C8_basicOperation :
    (runEvents emptyTree basicOperationEvents).map renderStackForHead =
        some ["bar test.js:1:34", "foo test.js:1:66", "global test.js:1:75",
          "global test.js:1:1", "(root) :0:0"] ∧
      (runEvents emptyTree basicOperationEvents).map
          (fun t => (t.headStack.map NodeData.name).count "global") =
        some 2 ∧
      (runEvents emptyTree
            (basicOperationEvents ++ [.ret, .ret, .ret, .ret])).map
          StackTracesTree.isHeadAtRoot =
        some true := by
  refine ⟨?_, ?_, ?_⟩ <;> rfl

end HermesStackTraces

namespace HermesDebugInfo

open DebugSourceLocation DebugInfoGenerator DebugInfo

/-! ## Concrete witnesses for the codec claims -/

/-- Concrete first location of a witness function. -/
def locW0 : DebugSourceLocation :=
  { address := 0, filenameId := 0, line := 1, column := 1, statement := 1 }

/-- Concrete second location of a witness function. -/
def locW1 : DebugSourceLocation :=
  { address := 5, filenameId := 0, line := 1, column := 10, statement := 2 }

/-- Concrete third location of a witness function. -/
def locW2 : DebugSourceLocation :=
  { address := 9, filenameId := 0, line := 2, column := 3, statement := 3 }

/-- Generator state after appending the three witness locations to a fresh
generator. -/
def genW : DebugInfoGenerator :=
  { sourcesData := [3, 0, 0, 1, 1, 1, 5, 0, 0, 9, 1, 4, 0, 1, 121, 1] }

/-- Decoded form of the three witness locations. -/
def lsW : List DebugSourceLocation :=
  [DebugSourceLocation.canon locW0, DebugSourceLocation.canon locW1,
    DebugSourceLocation.canon locW2]

/-- Witness for C1 at a concrete appended location list. -/
theorem C1_roundTrip_witness :
    (({} : DebugInfoGenerator).appendSourceLocations locW0 0 [locW1, locW2] =
        some (genW, 0) ∧
      (∀ l ∈ locW0 :: [locW1, locW2], l.u32)) ∧
      ((∃ ls, decodeLocations genW.serializeWithMove.data 0 = some ls ∧
          List.Forall₂ (fun a b => a.eqOp b = true) ls
            (locW0 :: [locW1, locW2])) ∧
        ((locW0 :: [locW1, locW2]).Pairwise
            (fun a b => a.address < b.address) →
          ∀ l ∈ locW0 :: [locW1, locW2],
            ∃ r, genW.serializeWithMove.getLocationForAddress 0 l.address =
                some r ∧ r.eqOp l = true)) :=
  ⟨⟨by decide, by decide⟩,
    C1_roundTrip {} genW locW0 0 0 [locW1, locW2] (by decide) (by decide)⟩

/-- Witness for C4 at a concrete container and query. -/
theorem C4_lastLe_witness :
    (decodeLocations genW.serializeWithMove.data 0 = some lsW ∧
      lsW.Pairwise (fun a b => a.address ≤ b.address)) ∧
      (genW.serializeWithMove.getLocationForAddress 0 6 = lastLeSpec 6 lsW ∧
        (lsW = [] →
          genW.serializeWithMove.getLocationForAddress 0 6 = none) ∧
        (∀ l0 rest, lsW = l0 :: rest → 6 < l0.address →
          genW.serializeWithMove.getLocationForAddress 0 6 = none)) :=
  ⟨⟨by decide, by decide⟩,
    C4_lastLe genW.serializeWithMove 0 6 lsW (by decide) (by decide)⟩

/-- Witness for C5 at a concrete container and query pair. -/
theorem C5_monotone_witness :
    ((5 ≤ 9) ∧ decodeLocations genW.serializeWithMove.data 0 = some lsW ∧
      lsW.Pairwise (fun x y => x.address ≤ y.address)) ∧
      ((∀ r, genW.serializeWithMove.getLocationForAddress 0 5 = some r →
          r.address ≤ 5) ∧
        (∀ ra, genW.serializeWithMove.getLocationForAddress 0 5 = some ra →
          ∃ rb, genW.serializeWithMove.getLocationForAddress 0 9 = some rb ∧
            ra.address ≤ rb.address)) :=
  ⟨⟨by decide, by decide, by decide⟩,
    C5_monotone genW.serializeWithMove 0 5 9 lsW (by decide) (by decide)
      (by decide)⟩

end HermesDebugInfo

namespace HermesStackTraces

/-! ## Concrete witnesses for the tree claims -/

/-- Concrete call-site key of a witness frame. -/
def kW1 : NodeData :=
  { name := "f", sourceLoc := { scriptName := "s.js", lineNo := 1, columnNo := 2 } }

/-- Concrete call-site key of a second, distinct witness frame. -/
def kW2 : NodeData :=
  { name := "g", sourceLoc := { scriptName := "s.js", lineNo := 3, columnNo := 4 } }

/-- Concrete well-balanced event sequence: two nested calls, the inner one
exiting by throw, the outer by return. -/
def esW : List TraceEvent :=
  [.call kW1, .call kW2, .throwUnwind, .ret]

/-- Witness for C2 at a concrete balanced call/throw/return sequence. -/
theorem C2_headAtRoot_witness :
    wellBalanced esW ∧
      ((∃ t2, runEvents emptyTree esW = some t2 ∧ t2.isHeadAtRoot = true) ∧
        (∀ n, callCount (esW.take n) = exitCount (esW.take n) →
          ∃ tn, runEvents emptyTree (esW.take n) = some tn ∧
            tn.isHeadAtRoot = true)) :=
  ⟨by decide, C2_headAtRoot esW (by decide)⟩

/-- Witness for C3 at the fresh tree, two repeated calls of one call site
and one call from each of two distinct call sites. -/
theorem C3_treeDedup_witness :
    (emptyTree.root.wfNode ∧ 2 ≤ 2 ∧ kW1 ≠ kW2) ∧
      ((∃ t2, runEvents emptyTree (repeatCallRet kW1 2) = some t2 ∧
          t2.headStack = emptyTree.headStack ∧
          ∃ m, nodeAt emptyTree.headStack t2.root = some m ∧
            (childKeys m.children).count kW1 = 1) ∧
        (∃ t3, runEvents emptyTree [.call kW1, .ret, .call kW2, .ret] =
            some t3 ∧
          t3.headStack = emptyTree.headStack ∧
          ∃ m, nodeAt emptyTree.headStack t3.root = some m ∧
            (childKeys m.children).count kW1 = 1 ∧
            (childKeys m.children).count kW2 = 1 ∧
            ∃ c1 c2, c1 ∈ m.children ∧ c2 ∈ m.children ∧
              c1.data = kW1 ∧ c2.data = kW2 ∧ c1 ≠ c2) ∧
        (∀ (es : List TraceEvent) (t4 : StackTracesTree),
          runEvents emptyTree es = some t4 → t4.root.wfNode)) :=
  ⟨⟨wfNode_leaf rootData, by decide, by decide⟩,
    C3_treeDedup emptyTree (wfNode_leaf rootData) kW1 kW1 kW2 2 (by decide)
      (by decide)⟩

end HermesStackTraces
